import Mathlib

/-!
Verification of the stario framework's dependency-injection resolver,
parameter-source providers and guardian middleware.

The repository ships the tests of the DI container and parameter sources but
not the resolver module itself, so the resolver, the parameter sources and
the error envelope are modelled from the specification (sections 3, 4.2,
4.3, 4.5 and 4.7 of spec.md); the guardian middleware is embedded from
`src/stario/middlewares/guardian.py`.

The resolver model is a fuel-indexed interpreter over a provider graph.
Scopes are attached to dependency edges, as in the `Annotated[T, provider,
"scope"]` annotations of the source; the interpreter threads a state holding
the request cache, the singleton cache, per-provider invocation counts, the
demand trace (one entry per resolved dependency edge, with the value that
edge received) and the resource acquisition/release bookkeeping.
-/

/-- Provider scopes, from spec section 3 ("Scope semantics"). -/
inductive Scope
  | transient
  | request
  | singleton
  | lazy
deriving DecidableEq, Repr

/-- Modelled from the spec: a `ProviderNode` of the dependency DAG.
`deps` is the ordered list of dependency edges, each naming the target
provider id and the scope the edge demands it under; `isResource` marks
providers whose value exposes the acquisition/release protocol (spec 4.5
step 7); `fn` is the provider function, given the number of invocations
performed so far and the resolved dependency values. -/
structure Provider where
  deps : List (Nat × Scope)
  isResource : Bool
  fn : Nat → List Nat → Nat

/-- A provider graph: providers indexed by position. -/
abbrev Graph := List Provider

/-- Indexing into a graph. -/
def pget : Graph → Nat → Option Provider
  | [], _ => none
  | p :: _, 0 => some p
  | _ :: g, i + 1 => pget g i

/-- First-match association-list lookup. -/
def alookup : List (Nat × Nat) → Nat → Option Nat
  | [], _ => none
  | (k, v) :: l, i => if i = k then some v else alookup l i

/-- Modelled from the spec: the per-request resolver state of spec 4.5.
`reqCache`/`singCache` are the scope caches, `counts` the invocation
counters, `demands` the demand trace (newest first), `acqOrder` the resource
acquisition order (oldest first) and `releaseStack` the release stack
(newest first). -/
structure RState where
  reqCache : List (Nat × Nat)
  singCache : List (Nat × Nat)
  counts : List (Nat × Nat)
  demands : List (Nat × Nat)
  acqOrder : List Nat
  releaseStack : List Nat
deriving DecidableEq, Repr

/-- The empty resolver state: fresh container, fresh request. -/
def st0 : RState := ⟨[], [], [], [], [], []⟩

/-- How many times provider `i` has been invoked. -/
def getCount (st : RState) (i : Nat) : Nat := (alookup st.counts i).getD 0

/-- Record one invocation of provider `i`. -/
def bump (st : RState) (i : Nat) : RState :=
  { st with counts := (i, getCount st i + 1) :: st.counts }

/-- Record that the edge demanding provider `i` received value `v`. -/
def pushDemand (st : RState) (i v : Nat) : RState :=
  { st with demands := (i, v) :: st.demands }

/-- Acquire the resource produced by provider `i`: remember the acquisition
order and push the release action onto the release stack (spec 4.5 step 7). -/
def acquire (st : RState) (i : Nat) : RState :=
  { st with acqOrder := st.acqOrder ++ [i], releaseStack := i :: st.releaseStack }

/-- Cache value `v` for provider `i` under the edge's scope (spec 4.5
step 8): request scope in the request cache, singleton scope on the
container, transient never cached. -/
def cacheAt (st : RState) (sc : Scope) (i v : Nat) : RState :=
  match sc with
  | Scope.request => { st with reqCache := (i, v) :: st.reqCache }
  | Scope.singleton => { st with singCache := (i, v) :: st.singCache }
  | _ => st

/-- Cache lookup for provider `i` under scope `sc` (spec 4.5 steps 1-2). -/
def cacheHit (st : RState) (sc : Scope) (i : Nat) : Option Nat :=
  match sc with
  | Scope.request => alookup st.reqCache i
  | Scope.singleton => alookup st.singCache i
  | _ => none

/-- The state change of invoking provider `i` under an edge of scope `sc`
(spec 4.5 steps 6-8): count the invocation, acquire the resource if the
value is one, cache per scope, record the demand. -/
def invokeStep (st : RState) (i v : Nat) (sc : Scope) (isR : Bool) : RState :=
  pushDemand (cacheAt (if isR then acquire (bump st i) i else bump st i) sc i v) i v

/-- Modelled from the spec: the resolver algorithm of spec 4.5, executed
sequentially (the concurrency of the source is cooperative; the in-flight
deduplication it needs is subsumed by the caches in a sequential model).
Resolves a list of dependency edges in order and returns the delivered
values together with the final state. A lazy edge delivers a deferred
handle (modelled as the value `0`) and evaluates nothing; activation of the
handle is a separate resolution under request scope, see `activateN`.
`fuel` bounds the recursion depth; a cyclic graph exhausts it and the
resolution fails, matching the spec's "cycles are configuration errors". -/
def resolveMany (g : Graph) : Nat → List (Nat × Scope) → RState → Option (List Nat × RState)
  | 0, _, _ => none
  | _ + 1, [], st => some ([], st)
  | fuel + 1, (i, sc) :: rest, st =>
    if sc = Scope.lazy then
      match resolveMany g fuel rest st with
      | none => none
      | some (vs, st') => some (0 :: vs, st')
    else
      match cacheHit st sc i with
      | some v =>
        match resolveMany g fuel rest (pushDemand st i v) with
        | none => none
        | some (vs, st') => some (v :: vs, st')
      | none =>
        match pget g i with
        | none => none
        | some p =>
          match resolveMany g fuel p.deps st with
          | none => none
          | some (vals, st1) =>
            let v := p.fn (getCount st1 i) vals
            match resolveMany g fuel rest (invokeStep st1 i v sc p.isResource) with
            | none => none
            | some (vs, st') => some (v :: vs, st')

/-- Non-lazy demand reachability: `ReachesL g l P` holds when resolving the
edge list `l` demands provider `P`, ignoring caches — `P` is the target of
an edge of `l` itself or of an edge reachable through providers' dependency
lists, never crossing a lazy edge. This is the spec's "transitively
required". -/
inductive ReachesL (g : Graph) (P : Nat) : List (Nat × Scope) → Prop
  | head (i : Nat) (sc : Scope) (rest : List (Nat × Scope)) :
      sc ≠ Scope.lazy → i = P → ReachesL g P ((i, sc) :: rest)
  | via (i : Nat) (sc : Scope) (rest : List (Nat × Scope)) (p : Provider) :
      sc ≠ Scope.lazy → pget g i = some p → ReachesL g P p.deps →
      ReachesL g P ((i, sc) :: rest)
  | tail (e : Nat × Scope) (rest : List (Nat × Scope)) :
      ReachesL g P rest → ReachesL g P (e :: rest)

/-- Number of edges demanding `P` in the unfolded dependency tree of the
edge list `l` (lazy subtrees excluded), mirroring the fuel discipline of
`resolveMany`. Under all-transient scoping each such edge is one
invocation. -/
def treeCount (g : Graph) : Nat → List (Nat × Scope) → Nat → Nat
  | 0, _, _ => 0
  | _ + 1, [], _ => 0
  | fuel + 1, (i, sc) :: rest, P =>
    (if sc = Scope.lazy then 0
     else
       (if i = P then 1 else 0) +
         (match pget g i with
          | some p => treeCount g fuel p.deps P
          | none => 0)) +
      treeCount g fuel rest P

/-- Every edge of the list is transient. -/
def edgesTransient (l : List (Nat × Scope)) : Prop := ∀ e ∈ l, e.2 = Scope.transient

/-- Every dependency edge of every provider of the graph is transient. -/
def graphTransient (g : Graph) : Prop := ∀ p ∈ g, edgesTransient p.deps

/-- Modelled from the spec: handling of one request (spec 2 data flow).
The handler's parameter list `hdeps` is resolved from the empty request
state; the handler body then runs — `handlerOk` tells whether it returned
normally or raised — and the request scope exits: every release action on
the release stack runs, top first. Returns the response status, the
resource acquisition order and the executed release sequence. Handler
exceptions map to a 500 response (spec 4.7); the releases run either way. -/
def runRequest (g : Graph) (hdeps : List (Nat × Scope)) (fuel : Nat) (handlerOk : Bool) :
    Option (Nat × List Nat × List Nat) :=
  match resolveMany g fuel hdeps st0 with
  | none => none
  | some (_, st) => some ((if handlerOk then 200 else 500), st.acqOrder, st.releaseStack)

/-- Modelled from the spec: entering a new request on a warm container.
The request cache and the request release bookkeeping are fresh; the
singleton cache, the invocation counts and the demand trace survive
(spec 3, "Lifecycles"). -/
def freshReq (st : RState) : RState :=
  { st with reqCache := [], acqOrder := [], releaseStack := [] }

/-- Modelled from the spec: a container handling a sequence of requests,
one handler dependency list per request. -/
def runSeq (g : Graph) (fuel : Nat) : List (List (Nat × Scope)) → RState → Option RState
  | [], st => some st
  | h :: hs, st =>
    match resolveMany g fuel h (freshReq st) with
    | none => none
    | some (_, st') => runSeq g fuel hs st'

/-- Modelled from the spec: activating a lazy handle `n` times in a row.
Each activation performs a full resolution of the handle's subgraph under
request scope (spec 3: scope semantics of `lazy`; spec 4.5 step 3), so the
first activation resolves and caches, and later activations are cache
hits. -/
def activateN (g : Graph) (fuel : Nat) (L : Nat) : Nat → RState → Option RState
  | 0, st => some st
  | n + 1, st =>
    match resolveMany g fuel [(L, Scope.request)] st with
    | none => none
    | some (_, st') => activateN g fuel L n st'

/-- Invocation count of provider `i` in an optional resolver state
(`99` on a failed resolution, so failures never fake a small count). -/
def countAfter (o : Option RState) (i : Nat) : Nat :=
  match o with
  | none => 99
  | some st => getCount st i

/-! ## Parameter sources, coercion and the error envelope

The parameter-source providers (`stario.parameters` / `stario.requests`)
are not part of the shipped sources either; they are modelled from spec
sections 4.2, 4.3 and 4.7 and from the messages asserted by the tests. -/

/-- The parameter sources the claims quantify over. -/
inductive PSource
  | query
  | header
  | cookie
  | path
deriving DecidableEq, Repr

/-- The human label of a source used in error bodies, as asserted by the
tests (`Missing required query parameter 'q'`, `Invalid header 'x-num'`,
`Invalid cookie 'num'`, `Invalid path parameter 'id'`). -/
def sourceLabel : PSource → String
  | PSource.query => "query parameter"
  | PSource.header => "header"
  | PSource.cookie => "cookie"
  | PSource.path => "path parameter"

/-- Modelled from the spec: the structured failure taxonomy of spec 4.7. -/
inductive PFailure
  | missing (src : PSource) (name : String)
  | invalid (src : PSource) (name : String)
  | unsupportedMedia
  | invalidBody
deriving DecidableEq, Repr

/-- HTTP status of a failure (spec 4.7 table). -/
def statusOf : PFailure → Nat
  | PFailure.missing _ _ => 400
  | PFailure.invalid _ _ => 422
  | PFailure.unsupportedMedia => 415
  | PFailure.invalidBody => 422

/-- A single-quote character, kept out of string literals. -/
def apos : String := String.singleton (Char.ofNat 39)

/-- Response body of a failure (spec 7: "user-visible bodies for 4xx
failures include the error kind and the offending source/name"), with the
exact wording asserted by the tests. -/
def messageOf : PFailure → String
  | PFailure.missing src n => "Missing required " ++ sourceLabel src ++ " " ++ apos ++ n ++ apos
  | PFailure.invalid src n => "Invalid " ++ sourceLabel src ++ " " ++ apos ++ n ++ apos
  | PFailure.unsupportedMedia => "Unsupported media type"
  | PFailure.invalidBody => "Invalid request body"

/-- Declared semantic types for parameters (the claims only exercise `int`
and `str`). -/
inductive Ty
  | tInt
  | tStr
deriving DecidableEq, Repr

/-- JSON values, for the structured-body source. -/
inductive Json
  | jNull
  | jBool (b : Bool)
  | jNum (n : Int)
  | jStr (s : String)
  | jArr (xs : List Json)
  | jObj (fs : List (String × Json))

/-- Resolved parameter values for single-valued sources. -/
inductive Val
  | vInt (i : Int)
  | vStr (s : String)
deriving DecidableEq, Repr

/-- Decimal digit accumulator for strict integer parsing. -/
def parseNatCore : List Char → Nat → Option Nat
  | [], acc => some acc
  | c :: cs, acc =>
    if c.isDigit then parseNatCore cs (acc * 10 + (c.toNat - 48))
    else none

/-- Modelled from the spec: strict string-to-integer coercion (spec 4.3:
"string → integer: parse strictly; failure → INVALID"): an optional leading
minus sign, then one or more decimal digits, nothing else. -/
def parseInt? (s : String) : Option Int :=
  match s.data with
  | [] => none
  | c :: cs =>
    if c = '-' then
      match cs with
      | [] => none
      | _ => (parseNatCore cs 0).map (fun n => -(n : Int))
    else (parseNatCore (c :: cs) 0).map (fun n => (n : Int))

/-- Modelled from the spec: value coercion (spec 4.3). Total: a failure is
`none`, never an exception. -/
def coerce (ty : Ty) (raw : String) : Option Val :=
  match ty with
  | Ty.tInt => (parseInt? raw).map Val.vInt
  | Ty.tStr => some (Val.vStr raw)

/-- An HTTP request as the parameter sources see it (spec 3 "Request"):
multi-valued query and headers, cookies, path parameters, a content type
and a body. Header and cookie names are stored lowercased. -/
structure HttpReq where
  query : List (String × String)
  headers : List (String × String)
  cookies : List (String × String)
  pathParams : List (String × String)
  contentType : Option String
  body : String
deriving DecidableEq, Repr

/-- First value bound to a name in a multi-valued mapping. -/
def firstVal : List (String × String) → String → Option String
  | [], _ => none
  | (k, v) :: l, n => if n = k then some v else firstVal l n

/-- The raw string a source extracts from the request (spec 4.2 table:
each single-valued source takes the first value bound to the name). -/
def rawOf (src : PSource) (req : HttpReq) (name : String) : Option String :=
  match src with
  | PSource.query => firstVal req.query name
  | PSource.header => firstVal req.headers name
  | PSource.cookie => firstVal req.cookies name
  | PSource.path => firstVal req.pathParams name

/-- Modelled from the spec: resolving one single-valued parameter
(spec 4.2): a missing source uses the declared default when there is one
and fails with MISSING otherwise; a present raw value that does not coerce
to the declared type fails with INVALID. Total — coercion failures are
returned, never thrown. -/
def resolveParam (req : HttpReq) (src : PSource) (name : String) (ty : Ty)
    (deflt : Option Val) : Except PFailure Val :=
  match rawOf src req name with
  | none =>
    match deflt with
    | some v => Except.ok v
    | none => Except.error (PFailure.missing src name)
  | some raw =>
    match coerce ty raw with
    | some v => Except.ok v
    | none => Except.error (PFailure.invalid src name)

/-- How the dispatcher answers a parameter resolution: a failure becomes
its status and message (spec 4.7); success runs the handler. -/
def respondWith (r : Except PFailure Val) (onOk : Val → String) : Nat × String :=
  match r with
  | Except.ok v => (200, onOk v)
  | Except.error f => (statusOf f, messageOf f)

/-! ### A small JSON decoder for the structured body source -/

/-- Skip JSON whitespace. -/
def skipWs : List Char → List Char
  | [] => []
  | c :: cs => if c = ' ' ∨ c = '\n' ∨ c = '\t' ∨ c = '\r' then skipWs cs else c :: cs

/-- Read a string literal body up to the closing quote (escapes are outside
what the claims exercise). -/
def strLitCore : List Char → List Char → Option (String × List Char)
  | [], _ => none
  | c :: cs, acc => if c = '"' then some (String.mk acc.reverse, cs) else strLitCore cs (c :: acc)

/-- Longest digit prefix. -/
def spanDigits : List Char → List Char × List Char
  | [] => ([], [])
  | c :: cs =>
    if c.isDigit then
      match spanDigits cs with
      | (ds, rest) => (c :: ds, rest)
    else ([], c :: cs)

/-- Digits to a natural number. -/
def natOfDigits (ds : List Char) : Nat :=
  ds.foldl (fun a c => a * 10 + (c.toNat - 48)) 0

/-- Read a JSON number (integer grammar). -/
def numLit : List Char → Option (Int × List Char)
  | [] => none
  | c :: cs =>
    if c = '-' then
      match spanDigits cs with
      | ([], _) => none
      | (ds, rest) => some (-(natOfDigits ds : Int), rest)
    else
      match spanDigits (c :: cs) with
      | ([], _) => none
      | (ds, rest) => some ((natOfDigits ds : Int), rest)

/-- Parsing tasks of the JSON decoder: a single value, the continuation of
an array after its first element, the continuation of an object after its
first field. -/
inductive JTask
  | value
  | elems (acc : List Json)
  | fields (acc : List (String × Json))

/-- Results of the JSON decoder tasks. -/
inductive JRes
  | val (j : Json)
  | vals (xs : List Json)
  | flds (fs : List (String × Json))

/-- Modelled from the spec: recursive-descent JSON decoding for the `body`
source ("if target is a structured type → JSON-decode", spec 4.2). Fuel
bounds the recursion; `parseJson?` always supplies enough for its input. -/
def jrun : Nat → JTask → List Char → Option (JRes × List Char)
  | 0, _, _ => none
  | fuel + 1, JTask.value, cs =>
    match skipWs cs with
    | 'n' :: 'u' :: 'l' :: 'l' :: rest => some (JRes.val Json.jNull, rest)
    | 't' :: 'r' :: 'u' :: 'e' :: rest => some (JRes.val (Json.jBool true), rest)
    | 'f' :: 'a' :: 'l' :: 's' :: 'e' :: rest => some (JRes.val (Json.jBool false), rest)
    | '"' :: rest =>
      match strLitCore rest [] with
      | none => none
      | some (s, r2) => some (JRes.val (Json.jStr s), r2)
    | '[' :: rest =>
      match skipWs rest with
      | ']' :: r2 => some (JRes.val (Json.jArr []), r2)
      | cs2 =>
        match jrun fuel JTask.value cs2 with
        | some (JRes.val j, r2) =>
          match jrun fuel (JTask.elems [j]) r2 with
          | some (JRes.vals xs, r3) => some (JRes.val (Json.jArr xs), r3)
          | _ => none
        | _ => none
    | '{' :: rest =>
      match skipWs rest with
      | '}' :: r2 => some (JRes.val (Json.jObj []), r2)
      | '"' :: cs2 =>
        match strLitCore cs2 [] with
        | none => none
        | some (k, r2) =>
          match skipWs r2 with
          | ':' :: r3 =>
            match jrun fuel JTask.value r3 with
            | some (JRes.val j, r4) =>
              match jrun fuel (JTask.fields [(k, j)]) r4 with
              | some (JRes.flds fs, r5) => some (JRes.val (Json.jObj fs), r5)
              | _ => none
            | _ => none
          | _ => none
      | _ => none
    | cs1 => (numLit cs1).map (fun x => (JRes.val (Json.jNum x.1), x.2))
  | fuel + 1, JTask.elems acc, cs =>
    match skipWs cs with
    | ',' :: rest =>
      match jrun fuel JTask.value rest with
      | some (JRes.val j, r2) => jrun fuel (JTask.elems (acc ++ [j])) r2
      | _ => none
    | ']' :: rest => some (JRes.vals acc, rest)
    | _ => none
  | fuel + 1, JTask.fields acc, cs =>
    match skipWs cs with
    | ',' :: rest =>
      match skipWs rest with
      | '"' :: cs2 =>
        match strLitCore cs2 [] with
        | none => none
        | some (k, r2) =>
          match skipWs r2 with
          | ':' :: r3 =>
            match jrun fuel JTask.value r3 with
            | some (JRes.val j, r4) => jrun fuel (JTask.fields (acc ++ [(k, j)])) r4
            | _ => none
          | _ => none
      | _ => none
    | '}' :: rest => some (JRes.flds acc, rest)
    | _ => none

/-- Decode a whole string as one JSON document; trailing content (other
than whitespace) and the empty body fail. -/
def parseJson? (s : String) : Option Json :=
  match jrun (2 * s.length + 4) JTask.value s.data with
  | some (JRes.val j, rest) => if skipWs rest = [] then some j else none
  | _ => none

/-- Target shapes of the polymorphic `body` source (spec 4.2): raw bytes,
decoded text, or a structured (JSON) value. -/
inductive BTy
  | bBytes
  | bStr
  | bStructured
deriving DecidableEq, Repr

/-- Is the first list a prefix of the second? -/
def charsPre : List Char → List Char → Bool
  | [], _ => true
  | _ :: _, [] => false
  | c :: cs, d :: ds => if c = d then charsPre cs ds else false

/-- Does the request's content type announce JSON (a media type of
`application/json`, parameters allowed)? -/
def isJsonCT : Option String → Bool
  | none => false
  | some s => charsPre "application/json".data s.data

/-- Values produced by the `body` source. -/
inductive BVal
  | bvBytes (s : String)
  | bvStr (s : String)
  | bvJson (j : Json)

/-- Modelled from the spec: the polymorphic `body` source (spec 4.2 table,
row `body`): bytes and string targets take the raw body (the empty body is
permitted); a structured target requires a JSON content type —
UNSUPPORTED_MEDIA_TYPE otherwise — and a decodable document — INVALID_BODY
on decode failure, which includes the empty body. -/
def parseBody (req : HttpReq) (bty : BTy) : Except PFailure BVal :=
  match bty with
  | BTy.bBytes => Except.ok (BVal.bvBytes req.body)
  | BTy.bStr => Except.ok (BVal.bvStr req.body)
  | BTy.bStructured =>
    if isJsonCT req.contentType then
      match parseJson? req.body with
      | some j => Except.ok (BVal.bvJson j)
      | none => Except.error PFailure.invalidBody
    else Except.error PFailure.unsupportedMedia

/-- Status and body the dispatcher answers for a body-parameter resolution
(the success body is not what the claims are about). -/
def bodyOutcome (req : HttpReq) (bty : BTy) : Nat × String :=
  match parseBody req bty with
  | Except.ok _ => (200, "")
  | Except.error f => (statusOf f, messageOf f)

/-! ## The guardian middleware

Embedded from `src/stario/middlewares/guardian.py`. An ASGI exchange is
abstracted as the ordered list of messages the wrapped application sends
before returning or raising. -/

/-- An `http.response.start` payload: status and headers. -/
structure StartMsg where
  status : Nat
  headers : List (String × String)
deriving DecidableEq, Repr

/-- ASGI response messages. -/
inductive Msg
  | start (s : StartMsg)
  | body (content : String) (moreBody : Bool)
deriving DecidableEq, Repr

/-- One run of the wrapped application: the messages it sends, and whether
it then raises an exception. -/
structure AppRun where
  msgs : List Msg
  raises : Bool
deriving DecidableEq, Repr

/-- The `_send` wrapper of `GuardianMiddleware.__call__`: a response-start
message gets `(b"x-request-id", trace_id)` appended to its headers; other
messages pass through unchanged (guardian.py lines 58-70). -/
def sendTransform (tid : String) : Msg → Msg
  | Msg.start s => Msg.start ⟨s.status, s.headers ++ [("x-request-id", tid)]⟩
  | m => m

/-- Is a message a response start? -/
def isStartMsg : Msg → Bool
  | Msg.start _ => true
  | _ => false

/-- `response_started`: has a response-start message been sent
(guardian.py lines 54-63)? -/
def responseStarted (msgs : List Msg) : Bool := msgs.any isStartMsg

/-- The default 500 response of guardian.py line 86:
`PlainTextResponse("Internal Server Error", status_code=500)`, as the ASGI
messages it sends. -/
def plainText500 : List Msg :=
  [Msg.start ⟨500, [("content-type", "text/plain; charset=utf-8"), ("content-length", "21")]⟩,
   Msg.body "Internal Server Error" false]

/-- `GuardianMiddleware.__call__` on an http scope with the default (`None`)
handler, embedded from guardian.py lines 36-104: the app's messages pass
through `_send`; if the app raises, the exception is swallowed and the
default 500 response is sent through `_send` — but only when no response
start had been sent (`if not response_started`). The middleware itself
never re-raises: it always returns a message list. `tid` is the trace id
generated for this request (`str(uuid.uuid7())`). -/
def guardian (tid : String) (app : AppRun) : List Msg :=
  let fwd := app.msgs.map (sendTransform tid)
  if app.raises then
    if responseStarted app.msgs then fwd
    else fwd ++ plainText500.map (sendTransform tid)
  else fwd

/-! ## Concrete fixtures

The graphs of `tests/test_dependencies.py` (dep1/dep2/dep3 diamonds, the
lazy chain, the nested context-manager pair) and the requests of
`tests/parameters/`. -/

/-- `dep1` of the lifetime tests: no dependencies, returns 1. -/
def pDep1 : Provider := ⟨[], false, fun _ _ => 1⟩

/-- `dep2` of the request-lifetime test: depends on dep1 (request scope), returns 2. -/
def pDep2Req : Provider := ⟨[(0, Scope.request)], false, fun _ _ => 2⟩

/-- `dep3` of the request-lifetime test: depends on dep1 and dep2 (request
scope), returns d1 + d2 + 3. -/
def pDep3Req : Provider := ⟨[(0, Scope.request), (1, Scope.request)], false, fun _ vs => vs.sum + 3⟩

/-- The all-request diamond of `test_dependencies_lifetimes_request`. -/
def gReq : Graph := [pDep1, pDep2Req, pDep3Req]

/-- The handler edges of `test_dependencies_lifetimes_request`. -/
def hReq : List (Nat × Scope) := [(0, Scope.request), (1, Scope.request), (2, Scope.request)]

/-- `dep2` of the transient-lifetime test. -/
def pDep2Tr : Provider := ⟨[(0, Scope.transient)], false, fun _ _ => 2⟩

/-- `dep3` of the transient-lifetime test. -/
def pDep3Tr : Provider := ⟨[(0, Scope.transient), (1, Scope.transient)], false, fun _ vs => vs.sum + 3⟩

/-- The all-transient diamond of `test_dependencies_lifetimes_transient`. -/
def gTr : Graph := [pDep1, pDep2Tr, pDep3Tr]

/-- The handler edges of `test_dependencies_lifetimes_transient`. -/
def hTr : List (Nat × Scope) := [(0, Scope.transient), (1, Scope.transient), (2, Scope.transient)]

/-- `dep2` of the singleton-lifetime test: depends on dep1 (singleton scope). -/
def pDep2Sg : Provider := ⟨[(0, Scope.singleton)], false, fun _ _ => 2⟩

/-- `dep3` of the singleton-lifetime test: independent, returns 3. -/
def pDep3Sg : Provider := ⟨[], false, fun _ _ => 3⟩

/-- The graph of `test_dependencies_lifetimes_singleton`. -/
def gSg : Graph := [pDep1, pDep2Sg, pDep3Sg]

/-- The handler edges of `test_dependencies_lifetimes_singleton`:
dep1 and dep2 singleton, dep3 request. -/
def hSg : List (Nat × Scope) := [(0, Scope.singleton), (1, Scope.singleton), (2, Scope.request)]

/-- `base_dep` of `test_dependencies_lazy_with_subdependencies`: returns 10. -/
def pBase : Provider := ⟨[], false, fun _ _ => 10⟩

/-- `derived_dep`: depends on base (default, transient), returns base + 5. -/
def pDerived : Provider := ⟨[(0, Scope.transient)], false, fun _ vs => vs.sum + 5⟩

/-- The lazy-chain graph. -/
def gLz : Graph := [pBase, pDerived]

/-- The handler edges of the lazy tests: one lazy edge to `derived_dep`. -/
def hLz : List (Nat × Scope) := [(1, Scope.lazy)]

/-- `get_db` of `test_context_manager_nested_dependencies`: a resource. -/
def pDb : Provider := ⟨[], true, fun _ _ => 7⟩

/-- `get_cache` of the nested context-manager test: depends on the db,
itself a resource. -/
def pCacheRes : Provider := ⟨[(0, Scope.transient)], true, fun _ vs => vs.sum + 1⟩

/-- The nested-resource graph. -/
def gRes : Graph := [pDb, pCacheRes]

/-- The handler edges of the nested context-manager test. -/
def hRes : List (Nat × Scope) := [(1, Scope.transient)]

/-- A request with nothing in it: `GET /q` with no query. -/
def reqEmpty : HttpReq := ⟨[], [], [], [], none, ""⟩

/-- `GET /q?q=not-an-int`. -/
def reqBadInt : HttpReq := ⟨[("q", "not-an-int")], [], [], [], none, ""⟩

/-- A plain-text body where a structured one is expected
(`test_body_json_expected_dict_but_plain_text`). -/
def reqPlainText : HttpReq := ⟨[], [], [], [], some "text/plain", "just text"⟩

/-- JSON content type, unparseable body. -/
def reqJsonJunk : HttpReq := ⟨[], [], [], [], some "application/json", "just text"⟩

/-- JSON content type, empty body (`test_body_json_expected_dict_empty_body`). -/
def reqJsonEmpty : HttpReq := ⟨[], [], [], [], some "application/json", ""⟩

/-- An app run that raises before any response message. -/
def appCrash : AppRun := ⟨[], true⟩

/-- An app run that sends a complete 200 response and returns. -/
def appOkRun : AppRun :=
  ⟨[Msg.start ⟨200, [("content-type", "text/plain; charset=utf-8")]⟩,
    Msg.body "hello" false], false⟩

/-- An app run that starts a response and then raises. -/
def appLateCrash : AppRun :=
  ⟨[Msg.start ⟨200, [("content-type", "text/plain; charset=utf-8")]⟩], true⟩

/-! ## Basic lemmas about the resolver state -/

theorem alookup_cons (k v i : Nat) (l : List (Nat × Nat)) :
    alookup ((k, v) :: l) i = if i = k then some v else alookup l i := rfl

@[simp] theorem getCount_pushDemand (st : RState) (i v Q : Nat) :
    getCount (pushDemand st i v) Q = getCount st Q := rfl

@[simp] theorem getCount_acquire (st : RState) (i Q : Nat) :
    getCount (acquire st i) Q = getCount st Q := rfl

theorem getCount_cacheAt (st : RState) (sc : Scope) (i v Q : Nat) :
    getCount (cacheAt st sc i v) Q = getCount st Q := by
  cases sc <;> rfl

theorem getCount_bump (st : RState) (i Q : Nat) :
    getCount (bump st i) Q = if Q = i then getCount st Q + 1 else getCount st Q := by
  by_cases h : Q = i
  · subst h; simp [bump, getCount, alookup_cons]
  · simp [bump, getCount, alookup_cons, h]

theorem getCount_invokeStep (st : RState) (i v Q : Nat) (sc : Scope) (isR : Bool) :
    getCount (invokeStep st i v sc isR) Q =
      if Q = i then getCount st Q + 1 else getCount st Q := by
  by_cases hr : isR <;>
    simp [invokeStep, hr, getCount_cacheAt, getCount_bump]

@[simp] theorem reqCache_pushDemand (st : RState) (i v : Nat) :
    (pushDemand st i v).reqCache = st.reqCache := rfl

@[simp] theorem singCache_pushDemand (st : RState) (i v : Nat) :
    (pushDemand st i v).singCache = st.singCache := rfl

@[simp] theorem demands_pushDemand (st : RState) (i v : Nat) :
    (pushDemand st i v).demands = (i, v) :: st.demands := rfl

theorem demands_invokeStep (st : RState) (i v : Nat) (sc : Scope) (isR : Bool) :
    (invokeStep st i v sc isR).demands = (i, v) :: st.demands := by
  by_cases hr : isR <;> cases sc <;> simp [invokeStep, hr, cacheAt, acquire, bump]

theorem cacheHit_pushDemand (st : RState) (i v : Nat) (sc : Scope) (Q : Nat) :
    cacheHit (pushDemand st i v) sc Q = cacheHit st sc Q := by
  cases sc <;> rfl

theorem cacheHit_invokeStep_same (st : RState) (i v Q : Nat) (sc : Scope) (isR : Bool)
    (h : sc = Scope.request ∨ sc = Scope.singleton) :
    cacheHit (invokeStep st i v sc isR) sc Q =
      if Q = i then some v else cacheHit st sc Q := by
  rcases h with h | h <;> subst h <;> by_cases hr : isR <;>
    simp [invokeStep, hr, cacheAt, cacheHit, acquire, bump, pushDemand, alookup_cons]

theorem cacheHit_invokeStep_other (st : RState) (i v Q : Nat) (sc τ : Scope) (isR : Bool)
    (h : τ ≠ sc) :
    cacheHit (invokeStep st i v sc isR) τ Q = cacheHit st τ Q := by
  cases τ <;> cases sc <;> simp_all [invokeStep, cacheAt, cacheHit, acquire, bump, pushDemand] <;>
    by_cases hr : isR <;> simp [hr]

theorem acqOrder_invokeStep (st : RState) (i v : Nat) (sc : Scope) (isR : Bool) :
    (invokeStep st i v sc isR).acqOrder =
      if isR then st.acqOrder ++ [i] else st.acqOrder := by
  by_cases hr : isR <;> cases sc <;> simp [invokeStep, hr, cacheAt, acquire, bump, pushDemand]

theorem releaseStack_invokeStep (st : RState) (i v : Nat) (sc : Scope) (isR : Bool) :
    (invokeStep st i v sc isR).releaseStack =
      if isR then i :: st.releaseStack else st.releaseStack := by
  by_cases hr : isR <;> cases sc <;> simp [invokeStep, hr, cacheAt, acquire, bump, pushDemand]

/-! ## Monotonicity of invocation counts -/

theorem resolve_count_mono (g : Graph) (Q : Nat) :
    ∀ fuel l st vs st', resolveMany g fuel l st = some (vs, st') →
      getCount st Q ≤ getCount st' Q := by
  intro fuel
  induction fuel with
  | zero => intro l st vs st' h; simp [resolveMany] at h
  | succ fuel ih =>
    intro l st vs st' h
    rcases l with _ | ⟨⟨i, sc⟩, rest⟩
    · simp [resolveMany] at h
      rw [h.2]
    · simp only [resolveMany] at h
      split at h
      · -- lazy edge
        split at h
        · exact absurd h (by simp)
        · rename_i vs1 st1 hr
          simp at h
          rw [← h.2]
          exact ih rest st vs1 st1 hr
      · split at h
        · -- cache hit
          rename_i v hch
          split at h
          · exact absurd h (by simp)
          · rename_i vs1 st1 hr
            simp at h
            rw [← h.2]
            simpa using ih rest (pushDemand st i v) vs1 st1 hr
        · -- invoke
          rename_i hch
          split at h
          · exact absurd h (by simp)
          · rename_i p hp
            split at h
            · exact absurd h (by simp)
            · rename_i vals st1 hd
              split at h
              · exact absurd h (by simp)
              · rename_i vs2 st2 hr
                simp at h
                rw [← h.2]
                have h1 := ih p.deps st vals st1 hd
                have h2 := ih rest _ vs2 st2 hr
                have h3 : getCount st1 Q ≤
                    getCount (invokeStep st1 i (p.fn (getCount st1 i) vals) sc p.isResource) Q := by
                  rw [getCount_invokeStep]
                  by_cases hq : Q = i <;> simp [hq]
                omega

/-! ## Unreached providers are untouched -/

theorem not_reach_tail {g : Graph} {P : Nat} {e : Nat × Scope} {rest : List (Nat × Scope)}
    (h : ¬ ReachesL g P (e :: rest)) : ¬ ReachesL g P rest :=
  fun hr => h (ReachesL.tail e rest hr)

theorem not_reach_head {g : Graph} {P i : Nat} {sc : Scope} {rest : List (Nat × Scope)}
    (hsc : sc ≠ Scope.lazy) (h : ¬ ReachesL g P ((i, sc) :: rest)) : i ≠ P :=
  fun hi => h (ReachesL.head i sc rest hsc hi)

theorem not_reach_via {g : Graph} {P i : Nat} {sc : Scope} {rest : List (Nat × Scope)}
    {p : Provider} (hsc : sc ≠ Scope.lazy) (hp : pget g i = some p)
    (h : ¬ ReachesL g P ((i, sc) :: rest)) : ¬ ReachesL g P p.deps :=
  fun hr => h (ReachesL.via i sc rest p hsc hp hr)

theorem cacheHit_invokeStep_ne (st : RState) (i v Q : Nat) (sc τ : Scope) (isR : Bool)
    (hτ : τ = Scope.request ∨ τ = Scope.singleton) (h : Q ≠ i) :
    cacheHit (invokeStep st i v sc isR) τ Q = cacheHit st τ Q := by
  rcases hτ with h1 | h1 <;> subst h1 <;> cases sc <;> by_cases hr : isR <;>
    simp [invokeStep, cacheAt, cacheHit, acquire, bump, pushDemand, alookup_cons, h, hr]

theorem resolve_unreached (g : Graph) (Q : Nat) :
    ∀ fuel l st vs st', resolveMany g fuel l st = some (vs, st') → ¬ ReachesL g Q l →
      getCount st' Q = getCount st Q ∧
      cacheHit st' Scope.request Q = cacheHit st Scope.request Q ∧
      cacheHit st' Scope.singleton Q = cacheHit st Scope.singleton Q ∧
      ∀ v, ((Q, v) ∈ st'.demands ↔ (Q, v) ∈ st.demands) := by
  intro fuel
  induction fuel with
  | zero => intro l st vs st' h hn; simp [resolveMany] at h
  | succ fuel ih =>
    intro l st vs st' h hn
    rcases l with _ | ⟨⟨i, sc⟩, rest⟩
    · simp [resolveMany] at h
      rw [← h.2]
      simp
    · simp only [resolveMany] at h
      split at h
      · -- lazy edge: no state change at all
        rename_i hsc
        split at h
        · exact absurd h (by simp)
        · rename_i vs1 st1 hr
          simp at h
          rw [← h.2]
          exact ih rest st vs1 st1 hr (not_reach_tail hn)
      · rename_i hsc
        split at h
        · -- cache hit: only a demand for i is recorded, and i ≠ Q
          rename_i v hch
          split at h
          · exact absurd h (by simp)
          · rename_i vs1 st1 hr
            simp at h
            rw [← h.2]
            have hiQ : i ≠ Q := not_reach_head hsc hn
            have hrec := ih rest (pushDemand st i v) vs1 st1 hr (not_reach_tail hn)
            refine ⟨by simpa using hrec.1, ?_, ?_, ?_⟩
            · rw [hrec.2.1, cacheHit_pushDemand]
            · rw [hrec.2.2.1, cacheHit_pushDemand]
            · intro w
              rw [hrec.2.2.2 w]
              simp [Ne.symm hiQ]
        · -- invoke: i ≠ Q and the dependency subtree cannot reach Q
          rename_i hch
          split at h
          · exact absurd h (by simp)
          · rename_i p hp
            split at h
            · exact absurd h (by simp)
            · rename_i vals st1 hd
              split at h
              · exact absurd h (by simp)
              · rename_i vs2 st2 hr
                simp at h
                rw [← h.2]
                have hiQ : i ≠ Q := not_reach_head hsc hn
                have hdep := ih p.deps st vals st1 hd (not_reach_via hsc hp hn)
                have hrec := ih rest _ vs2 st2 hr (not_reach_tail hn)
                refine ⟨?_, ?_, ?_, ?_⟩
                · rw [hrec.1, getCount_invokeStep, if_neg (Ne.symm hiQ), hdep.1]
                · rw [hrec.2.1,
                    cacheHit_invokeStep_ne st1 i _ Q sc Scope.request p.isResource
                      (Or.inl rfl) (Ne.symm hiQ), hdep.2.1]
                · rw [hrec.2.2.1,
                    cacheHit_invokeStep_ne st1 i _ Q sc Scope.singleton p.isResource
                      (Or.inr rfl) (Ne.symm hiQ), hdep.2.2.1]
                · intro w
                  rw [hrec.2.2.2 w]
                  rw [demands_invokeStep]
                  simp [Ne.symm hiQ, hdep.2.2.2 w]

/-! ## Acyclicity via a rank function -/

theorem reach_rank (g : Graph) (rk : Nat → Nat)
    (hRk : ∀ i p, pget g i = some p → ∀ e ∈ p.deps, rk e.1 < rk i) :
    ∀ {l : List (Nat × Scope)} {Q : Nat}, ReachesL g Q l → ∃ e ∈ l, rk Q ≤ rk e.1 := by
  intro l Q h
  induction h with
  | head i sc rest hsc hi =>
    exact ⟨(i, sc), by simp, by rw [hi]⟩
  | via i sc rest p hsc hp hr ih =>
    obtain ⟨e, he, hle⟩ := ih
    exact ⟨(i, sc), by simp, le_of_lt (lt_of_le_of_lt hle (hRk i p hp e he))⟩
  | tail e rest hr ih =>
    obtain ⟨e1, he1, hle⟩ := ih
    exact ⟨e1, by simp [he1], hle⟩

theorem no_self_reach_deps (g : Graph) (rk : Nat → Nat) (P : Nat) (p : Provider)
    (hRk : ∀ i q, pget g i = some q → ∀ e ∈ q.deps, rk e.1 < rk i)
    (hp : pget g P = some p) : ¬ ReachesL g P p.deps := by
  intro hr
  obtain ⟨e, he, hle⟩ := reach_rank g rk hRk hr
  have := hRk P p hp e he
  omega

/-! ## The cache invariant of a uniformly scoped provider

For a provider `P` all of whose incoming edges carry the cache scope `τ`
(request or singleton), the invocation count of `P` is `1` exactly when its
`τ`-cache entry exists and `0` otherwise, every demand for `P` delivers the
cached value, and the cached value never changes once written. -/

theorem resolve_target_inv (g : Graph) (P : Nat) (τ : Scope) (rk : Nat → Nat)
    (hτ : τ = Scope.request ∨ τ = Scope.singleton)
    (hRk : ∀ i p, pget g i = some p → ∀ e ∈ p.deps, rk e.1 < rk i)
    (hgTo : ∀ i p, pget g i = some p → ∀ e ∈ p.deps, e.1 = P → e.2 = τ) :
    ∀ fuel l st vs st',
      (∀ e ∈ l, e.1 = P → e.2 = τ) →
      resolveMany g fuel l st = some (vs, st') →
      getCount st P = (if (cacheHit st τ P).isSome then 1 else 0) →
      (∀ v, (P, v) ∈ st.demands → cacheHit st τ P = some v) →
      (getCount st' P = (if (cacheHit st' τ P).isSome then 1 else 0)) ∧
      (∀ v, (P, v) ∈ st'.demands → cacheHit st' τ P = some v) ∧
      (∀ v, cacheHit st τ P = some v → cacheHit st' τ P = some v) := by
  intro fuel
  induction fuel with
  | zero => intro l st vs st' hl h hC hD; simp [resolveMany] at h
  | succ fuel ih =>
    intro l st vs st' hl h hC hD
    rcases l with _ | ⟨⟨i, sc⟩, rest⟩
    · simp [resolveMany] at h
      rw [← h.2]
      exact ⟨hC, hD, fun v hv => hv⟩
    · have hltail : ∀ e ∈ rest, e.1 = P → e.2 = τ := fun e he => hl e (by simp [he])
      simp only [resolveMany] at h
      split at h
      · -- lazy edge: state untouched
        rename_i hsc
        split at h
        · exact absurd h (by simp)
        · rename_i vs1 st1 hr
          simp at h
          rw [← h.2]
          exact ih rest st vs1 st1 hltail hr hC hD
      · rename_i hsc
        split at h
        · -- cache hit
          rename_i v hch
          split at h
          · exact absurd h (by simp)
          · rename_i vs1 st1 hr
            simp at h
            rw [← h.2]
            have hC1 : getCount (pushDemand st i v) P =
                (if (cacheHit (pushDemand st i v) τ P).isSome then 1 else 0) := by
              rw [getCount_pushDemand, cacheHit_pushDemand]; exact hC
            have hD1 : ∀ w, (P, w) ∈ (pushDemand st i v).demands →
                cacheHit (pushDemand st i v) τ P = some w := by
              intro w hw
              rw [cacheHit_pushDemand]
              rw [demands_pushDemand] at hw
              rcases List.mem_cons.mp hw with hw | hw
              · rw [Prod.mk.injEq] at hw
                obtain ⟨hiP, hwv⟩ := hw
                have hscτ : sc = τ := hl (i, sc) (by simp) hiP.symm
                rw [hwv, hiP, ← hscτ]
                exact hch
              · exact hD w hw
            have hrec := ih rest (pushDemand st i v) vs1 st1 hltail hr hC1 hD1
            refine ⟨hrec.1, hrec.2.1, fun w hw => hrec.2.2 w ?_⟩
            rw [cacheHit_pushDemand]
            exact hw
        · -- invoke
          rename_i hch
          split at h
          · exact absurd h (by simp)
          · rename_i p hp
            split at h
            · exact absurd h (by simp)
            · rename_i vals st1 hd
              split at h
              · exact absurd h (by simp)
              · rename_i vs2 st2 hr
                simp at h
                rw [← h.2]
                by_cases hiP : i = P
                · -- invoking P itself: it was uncached, so count was 0
                  subst i
                  have hscτ : sc = τ := hl (P, sc) (by simp) rfl
                  subst sc
                  have hnone : cacheHit st τ P = none := hch
                  have hC0 : getCount st P = 0 := by
                    rw [hC, hnone]; simp
                  have hnr : ¬ ReachesL g P p.deps :=
                    no_self_reach_deps g rk P p hRk hp
                  have hdep := resolve_unreached g P fuel p.deps st vals st1 hd hnr
                  have hcu : cacheHit st1 τ P = cacheHit st τ P := by
                    rcases hτ with rfl | rfl
                    · exact hdep.2.1
                    · exact hdep.2.2.1
                  set v := p.fn (getCount st1 P) vals with hv
                  have hC2 : getCount (invokeStep st1 P v τ p.isResource) P =
                      (if (cacheHit (invokeStep st1 P v τ p.isResource) τ P).isSome
                       then 1 else 0) := by
                    rw [getCount_invokeStep, if_pos rfl,
                      cacheHit_invokeStep_same st1 P v P τ p.isResource hτ, if_pos rfl]
                    simp [hdep.1, hC0]
                  have hD2 : ∀ w, (P, w) ∈ (invokeStep st1 P v τ p.isResource).demands →
                      cacheHit (invokeStep st1 P v τ p.isResource) τ P = some w := by
                    intro w hw
                    rw [demands_invokeStep] at hw
                    rw [cacheHit_invokeStep_same st1 P v P τ p.isResource hτ, if_pos rfl]
                    rcases List.mem_cons.mp hw with hw | hw
                    · rw [Prod.mk.injEq] at hw
                      rw [hw.2]
                    · exfalso
                      have := hD w ((hdep.2.2.2 w).mp hw)
                      rw [hnone] at this
                      exact absurd this (by simp)
                  have hrec := ih rest _ vs2 st2 hltail hr hC2 hD2
                  refine ⟨hrec.1, hrec.2.1, fun w hw => ?_⟩
                  rw [hnone] at hw
                  exact absurd hw (by simp)
                · -- invoking some other provider
                  have hdep := ih p.deps st vals st1 (fun e he => hgTo i p hp e he) hd hC hD
                  set v := p.fn (getCount st1 i) vals with hv
                  have hcne : cacheHit (invokeStep st1 i v sc p.isResource) τ P =
                      cacheHit st1 τ P :=
                    cacheHit_invokeStep_ne st1 i v P sc τ p.isResource hτ (Ne.symm hiP)
                  have hC2 : getCount (invokeStep st1 i v sc p.isResource) P =
                      (if (cacheHit (invokeStep st1 i v sc p.isResource) τ P).isSome
                       then 1 else 0) := by
                    rw [getCount_invokeStep, if_neg (Ne.symm hiP), hcne]
                    exact hdep.1
                  have hD2 : ∀ w, (P, w) ∈ (invokeStep st1 i v sc p.isResource).demands →
                      cacheHit (invokeStep st1 i v sc p.isResource) τ P = some w := by
                    intro w hw
                    rw [demands_invokeStep] at hw
                    rw [hcne]
                    rcases List.mem_cons.mp hw with hw | hw
                    · rw [Prod.mk.injEq] at hw
                      exact absurd hw.1.symm hiP
                    · exact hdep.2.1 w hw
                  have hrec := ih rest _ vs2 st2 hltail hr hC2 hD2
                  refine ⟨hrec.1, hrec.2.1, fun w hw => ?_⟩
                  exact hrec.2.2 w (by rw [hcne]; exact hdep.2.2 w hw)

/-! ## Completeness: a transitively required provider is invoked

The invariant carried along: every cached provider had its dependency
subtree fully demanded when it was first resolved, so if `P` is reachable
from a cached node, `P` has already been invoked. -/

theorem resolve_complete (g : Graph) (P : Nat) :
    ∀ fuel l st vs st', resolveMany g fuel l st = some (vs, st') →
      (∀ i, ((cacheHit st Scope.request i).isSome ∨ (cacheHit st Scope.singleton i).isSome) →
        (i = P ∨ ∃ p, pget g i = some p ∧ ReachesL g P p.deps) → 1 ≤ getCount st P) →
      ((∀ i, ((cacheHit st' Scope.request i).isSome ∨ (cacheHit st' Scope.singleton i).isSome) →
        (i = P ∨ ∃ p, pget g i = some p ∧ ReachesL g P p.deps) → 1 ≤ getCount st' P) ∧
       (ReachesL g P l → 1 ≤ getCount st' P)) := by
  intro fuel
  induction fuel with
  | zero => intro l st vs st' h hK; simp [resolveMany] at h
  | succ fuel ih =>
    intro l st vs st' h hK
    rcases l with _ | ⟨⟨i, sc⟩, rest⟩
    · simp [resolveMany] at h
      rw [← h.2]
      exact ⟨hK, fun hr => by cases hr⟩
    · simp only [resolveMany] at h
      split at h
      · -- lazy edge
        rename_i hsc
        split at h
        · exact absurd h (by simp)
        · rename_i vs1 st1 hr
          simp at h
          rw [← h.2]
          have hrec := ih rest st vs1 st1 hr hK
          refine ⟨hrec.1, fun hreach => ?_⟩
          cases hreach with
          | head _ _ _ h1 _ => exact absurd hsc h1
          | via _ _ _ _ h1 _ _ => exact absurd hsc h1
          | tail _ _ h1 => exact hrec.2 h1
      · rename_i hsc
        split at h
        · -- cache hit
          rename_i v hch
          split at h
          · exact absurd h (by simp)
          · rename_i vs1 st1 hr
            simp at h
            rw [← h.2]
            have hKp : ∀ j,
                ((cacheHit (pushDemand st i v) Scope.request j).isSome ∨
                 (cacheHit (pushDemand st i v) Scope.singleton j).isSome) →
                (j = P ∨ ∃ p, pget g j = some p ∧ ReachesL g P p.deps) →
                1 ≤ getCount (pushDemand st i v) P := by
              intro j hc hrj
              rw [cacheHit_pushDemand, cacheHit_pushDemand] at hc
              rw [getCount_pushDemand]
              exact hK j hc hrj
            have hrec := ih rest (pushDemand st i v) vs1 st1 hr hKp
            have hmono : getCount st P ≤ getCount st1 P := by
              have := resolve_count_mono g P fuel rest (pushDemand st i v) vs1 st1 hr
              simpa using this
            refine ⟨hrec.1, fun hreach => ?_⟩
            have hany : (cacheHit st Scope.request i).isSome ∨
                (cacheHit st Scope.singleton i).isSome := by
              cases sc with
              | transient => exact absurd hch (by simp [cacheHit])
              | lazy => exact absurd rfl hsc
              | request => exact Or.inl (by rw [hch]; simp)
              | singleton => exact Or.inr (by rw [hch]; simp)
            cases hreach with
            | head _ _ _ _ h2 =>
              have := hK i hany (Or.inl h2)
              omega
            | via _ _ _ p _ hp h2 =>
              have := hK i hany (Or.inr ⟨p, hp, h2⟩)
              omega
            | tail _ _ h1 => exact hrec.2 h1
        · -- invoke
          rename_i hch
          split at h
          · exact absurd h (by simp)
          · rename_i p hp
            split at h
            · exact absurd h (by simp)
            · rename_i vals st1 hd
              split at h
              · exact absurd h (by simp)
              · rename_i vs2 st2 hr
                simp at h
                rw [← h.2]
                have hdep := ih p.deps st vals st1 hd hK
                set v := p.fn (getCount st1 i) vals with hv
                have hstep : ∀ Q, getCount st1 Q ≤
                    getCount (invokeStep st1 i v sc p.isResource) Q := by
                  intro Q
                  rw [getCount_invokeStep]
                  by_cases hq : Q = i <;> simp [hq]
                have hKi : ∀ j,
                    ((cacheHit (invokeStep st1 i v sc p.isResource) Scope.request j).isSome ∨
                     (cacheHit (invokeStep st1 i v sc p.isResource) Scope.singleton j).isSome) →
                    (j = P ∨ ∃ q, pget g j = some q ∧ ReachesL g P q.deps) →
                    1 ≤ getCount (invokeStep st1 i v sc p.isResource) P := by
                  intro j hc hrj
                  by_cases hji : j = i
                  · subst hji
                    rcases hrj with hjP | ⟨q, hq, hrq⟩
                    · subst hjP
                      have := hstep j
                      rw [getCount_invokeStep, if_pos rfl] at this ⊢
                      omega
                    · have hqp : q = p := by
                        rw [hp] at hq
                        exact (Option.some.injEq .. ▸ hq).symm
                      subst hqp
                      have := hdep.2 hrq
                      have h2 := hstep P
                      omega
                  · rw [cacheHit_invokeStep_ne st1 i v j sc Scope.request p.isResource
                        (Or.inl rfl) hji,
                      cacheHit_invokeStep_ne st1 i v j sc Scope.singleton p.isResource
                        (Or.inr rfl) hji] at hc
                    have := hdep.1 j hc hrj
                    have h2 := hstep P
                    omega
                have hrec := ih rest _ vs2 st2 hr hKi
                have hmono2 : getCount (invokeStep st1 i v sc p.isResource) P ≤
                    getCount st2 P :=
                  resolve_count_mono g P fuel rest _ vs2 st2 hr
                refine ⟨hrec.1, fun hreach => ?_⟩
                cases hreach with
                | head _ _ _ _ h2 =>
                  have h3 := hstep P
                  rw [getCount_invokeStep] at h3
                  have h4 : getCount (invokeStep st1 i v sc p.isResource) P =
                      getCount st1 P + 1 := by
                    rw [getCount_invokeStep, if_pos h2.symm]
                  omega
                | via _ _ _ q _ hq h2 =>
                  have hqp : q = p := by
                    rw [hp] at hq
                    exact (Option.some.injEq .. ▸ hq).symm
                  subst hqp
                  have := hdep.2 h2
                  have h3 := hstep P
                  omega
                | tail _ _ h1 => exact hrec.2 h1

/-! ## Transient scoping: one invocation per edge of the unfolded tree -/

theorem pget_mem : ∀ (g : Graph) (i : Nat) (p : Provider), pget g i = some p → p ∈ g := by
  intro g
  induction g with
  | nil => intro i p h; simp [pget] at h
  | cons q g ih =>
    intro i p h
    cases i with
    | zero =>
      simp [pget] at h
      simp [h]
    | succ i =>
      simp [pget] at h
      simp [ih i p h]

theorem resolve_nil (g : Graph) :
    ∀ fuel st vs st', resolveMany g fuel [] st = some (vs, st') → st' = st ∧ vs = [] := by
  intro fuel st vs st' h
  cases fuel with
  | zero => simp [resolveMany] at h
  | succ fuel =>
    simp [resolveMany] at h
    exact ⟨h.2.symm, h.1⟩

theorem resolve_transient_count (g : Graph) (P : Nat) (hg : graphTransient g) :
    ∀ fuel l st vs st', edgesTransient l → resolveMany g fuel l st = some (vs, st') →
      getCount st' P = getCount st P + treeCount g fuel l P := by
  intro fuel
  induction fuel with
  | zero => intro l st vs st' hl h; simp [resolveMany] at h
  | succ fuel ih =>
    intro l st vs st' hl h
    rcases l with _ | ⟨⟨i, sc⟩, rest⟩
    · simp [resolveMany] at h
      rw [← h.2]
      simp [treeCount]
    · have hsct : sc = Scope.transient := hl (i, sc) (by simp)
      subst sc
      have hltail : edgesTransient rest := fun e he => hl e (by simp [he])
      simp only [resolveMany] at h
      split at h
      · rename_i hsc
        exact absurd hsc (by simp)
      · rename_i hsc
        split at h
        · rename_i v hch
          exact absurd hch (by simp [cacheHit])
        · rename_i hch
          split at h
          · exact absurd h (by simp)
          · rename_i p hp
            split at h
            · exact absurd h (by simp)
            · rename_i vals st1 hd
              split at h
              · exact absurd h (by simp)
              · rename_i vs2 st2 hr
                simp at h
                rw [← h.2]
                have hdept : edgesTransient p.deps := hg p (pget_mem g i p hp)
                have h1 := ih p.deps st vals st1 hdept hd
                have h2 := ih rest _ vs2 st2 hltail hr
                rw [h2, getCount_invokeStep, h1]
                simp only [treeCount, hp]
                by_cases hiP : P = i
                · subst hiP
                  simp
                  omega
                · rw [if_neg hiP]
                  have : ¬ (i = P) := fun hc => hiP hc.symm
                  simp [this]
                  omega

/-! ## The release stack mirrors the acquisition order -/

@[simp] theorem acqOrder_pushDemand (st : RState) (i v : Nat) :
    (pushDemand st i v).acqOrder = st.acqOrder := rfl

@[simp] theorem releaseStack_pushDemand (st : RState) (i v : Nat) :
    (pushDemand st i v).releaseStack = st.releaseStack := rfl

theorem resolve_release_inv (g : Graph) :
    ∀ fuel l st vs st', resolveMany g fuel l st = some (vs, st') →
      st.releaseStack = st.acqOrder.reverse →
      st'.releaseStack = st'.acqOrder.reverse := by
  intro fuel
  induction fuel with
  | zero => intro l st vs st' h hinv; simp [resolveMany] at h
  | succ fuel ih =>
    intro l st vs st' h hinv
    rcases l with _ | ⟨⟨i, sc⟩, rest⟩
    · simp [resolveMany] at h
      rw [← h.2]
      exact hinv
    · simp only [resolveMany] at h
      split at h
      · split at h
        · exact absurd h (by simp)
        · rename_i vs1 st1 hr
          simp at h
          rw [← h.2]
          exact ih rest st vs1 st1 hr hinv
      · split at h
        · rename_i v hch
          split at h
          · exact absurd h (by simp)
          · rename_i vs1 st1 hr
            simp at h
            rw [← h.2]
            exact ih rest (pushDemand st i v) vs1 st1 hr (by simpa using hinv)
        · split at h
          · exact absurd h (by simp)
          · rename_i p hp
            split at h
            · exact absurd h (by simp)
            · rename_i vals st1 hd
              split at h
              · exact absurd h (by simp)
              · rename_i vs2 st2 hr
                simp at h
                rw [← h.2]
                have h1 := ih p.deps st vals st1 hd hinv
                refine ih rest _ vs2 st2 hr ?_
                rw [releaseStack_invokeStep, acqOrder_invokeStep]
                by_cases hre : p.isResource <;> simp [hre, h1]

/-! ## Lazy activation -/

theorem activate_first (g : Graph) (L : Nat) (p : Provider) (hp : pget g L = some p)
    (hg : graphTransient g) :
    ∀ fuel st vs st', alookup st.reqCache L = none →
      resolveMany g (fuel + 1) [(L, Scope.request)] st = some (vs, st') →
      (∀ Q, getCount st' Q =
        getCount st Q + ((if Q = L then 1 else 0) + treeCount g fuel p.deps Q)) ∧
      (∃ v, alookup st'.reqCache L = some v) := by
  intro fuel st vs st' hmiss h
  have hch : cacheHit st Scope.request L = none := hmiss
  simp only [resolveMany, hch, hp] at h
  rw [if_neg (by simp : ¬ Scope.request = Scope.lazy)] at h
  split at h
  · exact absurd h (by simp)
  · rename_i vals st1 hd
    split at h
    · exact absurd h (by simp)
    · rename_i vs2 st2 hr
      simp at h
      rw [← h.2]
      obtain ⟨h2eq, _⟩ := resolve_nil g fuel _ vs2 st2 hr
      subst h2eq
      constructor
      · intro Q
        have h1 := resolve_transient_count g Q hg fuel p.deps st vals st1
          (hg p (pget_mem g L p hp)) hd
        rw [getCount_invokeStep, h1]
        by_cases hq : Q = L
        · simp [hq]
          try omega
        · simp [hq]
          try omega
      · refine ⟨p.fn (getCount st1 L) vals, ?_⟩
        have := cacheHit_invokeStep_same st1 L (p.fn (getCount st1 L) vals) L
          Scope.request p.isResource (Or.inl rfl)
        rw [if_pos rfl] at this
        exact this

theorem activate_cached (g : Graph) (L v : Nat) :
    ∀ fuel st vs st', alookup st.reqCache L = some v →
      resolveMany g fuel [(L, Scope.request)] st = some (vs, st') →
      st' = pushDemand st L v ∧ vs = [v] := by
  intro fuel st vs st' hhit h
  cases fuel with
  | zero => simp [resolveMany] at h
  | succ fuel =>
    have hch : cacheHit st Scope.request L = some v := hhit
    simp only [resolveMany, hch] at h
    rw [if_neg (by simp : ¬ Scope.request = Scope.lazy)] at h
    split at h
    · exact absurd h (by simp)
    · rename_i vs1 st1 hr
      simp at h
      obtain ⟨h1eq, h1vs⟩ := resolve_nil g fuel _ vs1 st1 hr
      subst h1eq
      subst h1vs
      exact ⟨h.2.symm, h.1.symm⟩

theorem activateN_cached (g : Graph) (L v : Nat) :
    ∀ n fuel st st', alookup st.reqCache L = some v →
      activateN g fuel L n st = some st' →
      (∀ Q, getCount st' Q = getCount st Q) ∧ alookup st'.reqCache L = some v := by
  intro n
  induction n with
  | zero =>
    intro fuel st st' hhit h
    simp [activateN] at h
    rw [← h]
    exact ⟨fun Q => rfl, hhit⟩
  | succ n ih =>
    intro fuel st st' hhit h
    simp only [activateN] at h
    split at h
    · exact absurd h (by simp)
    · rename_i r vs1 st1 hr
      obtain ⟨hsteq, _⟩ := activate_cached g L v fuel st vs1 st1 hhit hr
      subst hsteq
      have := ih fuel (pushDemand st L v) st' (by simpa using hhit) h
      exact ⟨fun Q => by rw [this.1 Q, getCount_pushDemand], this.2⟩

/-! ## Singleton persistence across a request sequence -/

@[simp] theorem getCount_freshReq (st : RState) (Q : Nat) :
    getCount (freshReq st) Q = getCount st Q := rfl

@[simp] theorem demands_freshReq (st : RState) :
    (freshReq st).demands = st.demands := rfl

@[simp] theorem cacheHit_freshReq_singleton (st : RState) (Q : Nat) :
    cacheHit (freshReq st) Scope.singleton Q = cacheHit st Scope.singleton Q := rfl

theorem runSeq_singleton_inv (g : Graph) (S : Nat) (rk : Nat → Nat) (fuel : Nat)
    (hRk : ∀ i p, pget g i = some p → ∀ e ∈ p.deps, rk e.1 < rk i)
    (hgTo : ∀ i p, pget g i = some p → ∀ e ∈ p.deps, e.1 = S → e.2 = Scope.singleton) :
    ∀ hs st st',
      (∀ h ∈ hs, ∀ e ∈ h, e.1 = S → e.2 = Scope.singleton) →
      runSeq g fuel hs st = some st' →
      getCount st S = (if (cacheHit st Scope.singleton S).isSome then 1 else 0) →
      (∀ v, (S, v) ∈ st.demands → cacheHit st Scope.singleton S = some v) →
      (getCount st' S = (if (cacheHit st' Scope.singleton S).isSome then 1 else 0)) ∧
      (∀ v, (S, v) ∈ st'.demands → cacheHit st' Scope.singleton S = some v) := by
  intro hs
  induction hs with
  | nil =>
    intro st st' hl h hC hD
    simp [runSeq] at h
    rw [← h]
    exact ⟨hC, hD⟩
  | cons hd hs ih =>
    intro st st' hl h hC hD
    simp only [runSeq] at h
    split at h
    · exact absurd h (by simp)
    · rename_i r vs1 st1 hr
      have hC0 : getCount (freshReq st) S =
          (if (cacheHit (freshReq st) Scope.singleton S).isSome then 1 else 0) := by
        simpa using hC
      have hD0 : ∀ v, (S, v) ∈ (freshReq st).demands →
          cacheHit (freshReq st) Scope.singleton S = some v := by
        simpa using hD
      have hinv := resolve_target_inv g S Scope.singleton rk (Or.inr rfl) hRk hgTo
        fuel hd (freshReq st) vs1 st1 (hl hd (by simp)) hr hC0 hD0
      exact ih st1 st' (fun h2 hh2 => hl h2 (by simp [hh2])) h hinv.1 hinv.2.1

/-! ## Claim C1 -/

/-- C1: For every handler and every request, a provider `P` all of whose
annotations carry scope `request` is, during the handling of one request
from a fresh state, invoked exactly once when it is transitively required
by the handler and zero times when it is not; and every dependency edge
referencing `P` receives the same value. The graph is a DAG, witnessed by
the rank function `rk`. -/
theorem c1_request_scoped_once (g : Graph) (hdeps : List (Nat × Scope)) (fuel P : Nat)
    (rk : Nat → Nat) (vs : List Nat) (st' : RState)
    (hRk : ∀ i p, pget g i = some p → ∀ e ∈ p.deps, rk e.1 < rk i)
    (hgTo : ∀ i p, pget g i = some p → ∀ e ∈ p.deps, e.1 = P → e.2 = Scope.request)
    (hlTo : ∀ e ∈ hdeps, e.1 = P → e.2 = Scope.request)
    (hres : resolveMany g fuel hdeps st0 = some (vs, st')) :
    (ReachesL g P hdeps → getCount st' P = 1) ∧
    (¬ ReachesL g P hdeps → getCount st' P = 0) ∧
    (∀ v w, (P, v) ∈ st'.demands → (P, w) ∈ st'.demands → v = w) := by
  have hC0 : getCount st0 P = (if (cacheHit st0 Scope.request P).isSome then 1 else 0) := by
    simp [st0, getCount, alookup, cacheHit]
  have hD0 : ∀ v, (P, v) ∈ st0.demands → cacheHit st0 Scope.request P = some v := by
    simp [st0]
  have hinv := resolve_target_inv g P Scope.request rk (Or.inl rfl) hRk hgTo
    fuel hdeps st0 vs st' hlTo hres hC0 hD0
  have hK0 : ∀ i, ((cacheHit st0 Scope.request i).isSome ∨
      (cacheHit st0 Scope.singleton i).isSome) →
      (i = P ∨ ∃ p, pget g i = some p ∧ ReachesL g P p.deps) → 1 ≤ getCount st0 P := by
    intro i hc
    simp [st0, cacheHit, alookup] at hc
  have hcomp := resolve_complete g P fuel hdeps st0 vs st' hres hK0
  refine ⟨?_, ?_, ?_⟩
  · intro hreach
    have h1 := hcomp.2 hreach
    by_cases hb : (cacheHit st' Scope.request P).isSome
    · rw [hinv.1, if_pos hb]
    · rw [hinv.1, if_neg hb] at h1
      omega
  · intro hnreach
    have := resolve_unreached g P fuel hdeps st0 vs st' hres hnreach
    rw [this.1]
    simp [st0, getCount, alookup]
  · intro v w hv hw
    have h1 := hinv.2.1 v hv
    have h2 := hinv.2.1 w hw
    rw [h1] at h2
    exact Option.some.inj h2

theorem c1_request_scoped_once_witness :
    countAfter ((resolveMany gReq 10 hReq st0).map Prod.snd) 0 = 1 := by
  have hRk : ∀ i p, pget gReq i = some p → ∀ e ∈ p.deps, id e.1 < id i := by
    intro i p hp e he
    match i with
    | 0 =>
      simp [gReq, pget] at hp
      subst hp
      simp [pDep1] at he
    | 1 =>
      simp [gReq, pget] at hp
      subst hp
      simp [pDep2Req] at he
      rw [he]
      decide
    | 2 =>
      simp [gReq, pget] at hp
      subst hp
      simp [pDep3Req] at he
      rcases he with rfl | rfl <;> decide
    | n + 3 => simp [gReq, pget] at hp
  have hgTo : ∀ i p, pget gReq i = some p → ∀ e ∈ p.deps, e.1 = 0 → e.2 = Scope.request := by
    intro i p hp e he _
    match i with
    | 0 =>
      simp [gReq, pget] at hp
      subst hp
      simp [pDep1] at he
    | 1 =>
      simp [gReq, pget] at hp
      subst hp
      simp [pDep2Req] at he
      rw [he]
    | 2 =>
      simp [gReq, pget] at hp
      subst hp
      simp [pDep3Req] at he
      rcases he with rfl | rfl <;> rfl
    | n + 3 => simp [gReq, pget] at hp
  have hlTo : ∀ e ∈ hReq, e.1 = 0 → e.2 = Scope.request := by
    intro e he _
    simp [hReq] at he
    rcases he with rfl | rfl | rfl <;> rfl
  cases h : resolveMany gReq 10 hReq st0 with
  | none => exact absurd h (by decide)
  | some r =>
    obtain ⟨vs, st'⟩ := r
    have hthm := c1_request_scoped_once gReq hReq 10 0 id vs st' hRk hgTo hlTo h
    have hreach : ReachesL gReq 0 hReq :=
      ReachesL.head 0 Scope.request [(1, Scope.request), (2, Scope.request)] (by decide) rfl
    simpa [countAfter] using hthm.1 hreach

/-! ## Claim C2 -/

/-- C2: For a provider `S` all of whose annotations carry scope `singleton`,
across any sequence of requests handled by one container from a fresh
start, `S` is invoked at most once in total, and every demand for `S` — in
any of the requests — receives the value produced by that one invocation. -/
theorem c2_singleton_once_across_requests (g : Graph) (hs : List (List (Nat × Scope)))
    (fuel S : Nat) (rk : Nat → Nat) (st' : RState)
    (hRk : ∀ i p, pget g i = some p → ∀ e ∈ p.deps, rk e.1 < rk i)
    (hgTo : ∀ i p, pget g i = some p → ∀ e ∈ p.deps, e.1 = S → e.2 = Scope.singleton)
    (hlTo : ∀ h ∈ hs, ∀ e ∈ h, e.1 = S → e.2 = Scope.singleton)
    (hres : runSeq g fuel hs st0 = some st') :
    getCount st' S ≤ 1 ∧
    (∀ v w, (S, v) ∈ st'.demands → (S, w) ∈ st'.demands → v = w) := by
  have hinv := runSeq_singleton_inv g S rk fuel hRk hgTo hs st0 st' hlTo hres
    (by simp [st0, getCount, alookup, cacheHit]) (by simp [st0])
  constructor
  · by_cases hb : (cacheHit st' Scope.singleton S).isSome
    · rw [hinv.1, if_pos hb]
    · rw [hinv.1, if_neg hb]
      omega
  · intro v w hv hw
    have h1 := hinv.2 v hv
    have h2 := hinv.2 w hw
    rw [h1] at h2
    exact Option.some.inj h2

theorem c2_singleton_once_across_requests_witness :
    countAfter (runSeq gSg 20 [hSg, hSg] st0) 0 ≤ 1 := by
  have hRk : ∀ i p, pget gSg i = some p → ∀ e ∈ p.deps, id e.1 < id i := by
    intro i p hp e he
    match i with
    | 0 =>
      simp [gSg, pget] at hp
      subst hp
      simp [pDep1] at he
    | 1 =>
      simp [gSg, pget] at hp
      subst hp
      simp [pDep2Sg] at he
      rw [he]
      decide
    | 2 =>
      simp [gSg, pget] at hp
      subst hp
      simp [pDep3Sg] at he
    | n + 3 => simp [gSg, pget] at hp
  have hgTo : ∀ i p, pget gSg i = some p → ∀ e ∈ p.deps, e.1 = 0 → e.2 = Scope.singleton := by
    intro i p hp e he _
    match i with
    | 0 =>
      simp [gSg, pget] at hp
      subst hp
      simp [pDep1] at he
    | 1 =>
      simp [gSg, pget] at hp
      subst hp
      simp [pDep2Sg] at he
      rw [he]
    | 2 =>
      simp [gSg, pget] at hp
      subst hp
      simp [pDep3Sg] at he
    | n + 3 => simp [gSg, pget] at hp
  have hlTo : ∀ h ∈ [hSg, hSg], ∀ e ∈ h, e.1 = 0 → e.2 = Scope.singleton := by
    intro h hh e he h0
    simp [hSg] at hh
    subst hh
    simp [hSg] at he
    rcases he with rfl | rfl | rfl
    · rfl
    · rfl
    · exact absurd h0 (by decide)
  cases h : runSeq gSg 20 [hSg, hSg] st0 with
  | none => exact absurd h (by decide)
  | some stF =>
    have hthm := c2_singleton_once_across_requests gSg [hSg, hSg] 20 0 id stF
      hRk hgTo hlTo h
    simpa [countAfter] using hthm.1

/-! ## Claim C3 -/

/-- C3: In an all-transient dependency graph, each provider is invoked once
per edge demanding it in the unfolded dependency tree of the handler — the
edge count of the shared DAG node in the unfolded tree, not its edge count
in the DAG. -/
theorem c3_transient_per_unfolded_edge (g : Graph) (l : List (Nat × Scope)) (fuel P : Nat)
    (vs : List Nat) (st' : RState) (hg : graphTransient g) (hl : edgesTransient l)
    (hres : resolveMany g fuel l st0 = some (vs, st')) :
    getCount st' P = treeCount g fuel l P := by
  have h := resolve_transient_count g P hg fuel l st0 vs st' hl hres
  rw [h]
  simp [st0, getCount, alookup]

theorem c3_transient_per_unfolded_edge_witness :
    countAfter ((resolveMany gTr 10 hTr st0).map Prod.snd) 0 = 4 ∧
    countAfter ((resolveMany gTr 10 hTr st0).map Prod.snd) 1 = 2 ∧
    countAfter ((resolveMany gTr 10 hTr st0).map Prod.snd) 2 = 1 := by
  have hg : graphTransient gTr := by
    intro p hp e he
    simp [gTr] at hp
    rcases hp with rfl | rfl | rfl
    · simp [pDep1] at he
    · simp [pDep2Tr] at he
      rw [he]
    · simp [pDep3Tr] at he
      rcases he with rfl | rfl <;> rfl
  have hl : edgesTransient hTr := by
    intro e he
    simp [hTr] at he
    rcases he with rfl | rfl | rfl <;> rfl
  cases h : resolveMany gTr 10 hTr st0 with
  | none => exact absurd h (by decide)
  | some r =>
    obtain ⟨vs, st'⟩ := r
    refine ⟨?_, ?_, ?_⟩
    · simpa [countAfter] using
        (c3_transient_per_unfolded_edge gTr hTr 10 0 vs st' hg hl h).trans (by decide)
    · simpa [countAfter] using
        (c3_transient_per_unfolded_edge gTr hTr 10 1 vs st' hg hl h).trans (by decide)
    · simpa [countAfter] using
        (c3_transient_per_unfolded_edge gTr hTr 10 2 vs st' hg hl h).trans (by decide)

/-! ## Claim C5 -/

/-- C5: For every request, the release actions registered by
resource-providing dependencies run at request-scope exit in strict LIFO
order of their acquisition — the executed sequence is exactly the reverse
of the acquisition order, so each registered release runs exactly once —
and this holds both when the handler returns normally (status 200) and when
it raises (status 500). -/
theorem c5_release_lifo (g : Graph) (hdeps : List (Nat × Scope)) (fuel : Nat)
    (handlerOk : Bool) (status : Nat) (acq rels : List Nat)
    (hres : runRequest g hdeps fuel handlerOk = some (status, acq, rels)) :
    rels = acq.reverse ∧ (∀ i, rels.count i = acq.count i) ∧
    status = (if handlerOk then 200 else 500) := by
  simp only [runRequest] at hres
  split at hres
  · exact absurd hres (by simp)
  · rename_i r vs1 stF heq
    simp at hres
    have hstack : stF.releaseStack = stF.acqOrder.reverse :=
      resolve_release_inv g fuel hdeps st0 vs1 stF heq (by simp [st0])
    obtain ⟨h1, h2, h3⟩ := hres
    rw [← h2, ← h3, ← h1, hstack]
    exact ⟨rfl, fun i => by rw [List.count_reverse], rfl⟩

theorem c5_release_lifo_witness :
    runRequest gRes hRes 10 false = some (500, [0, 1], [1, 0]) ∧
    [1, 0] = ([0, 1] : List Nat).reverse ∧
    ([1, 0] : List Nat).count 0 = ([0, 1] : List Nat).count 0 := by
  have h : runRequest gRes hRes 10 false = some (500, [0, 1], [1, 0]) := by decide
  have hthm := c5_release_lifo gRes hRes 10 false 500 [0, 1] [1, 0] h
  exact ⟨h, hthm.1, hthm.2.1 0⟩

/-! ## Claim C4 -/

/-- C4: A lazy parameter defers its whole subgraph: while the handler is
resolved, every provider that is not transitively required through a
non-lazy edge — in particular the lazy provider `L` and everything below it
— is invoked zero times. On the first activation of the handle the subgraph
is fully resolved: `L` is invoked once and each provider below it once per
edge of the unfolded subtree; any number of further activations within the
request change no invocation count — the handle is memoized. -/
theorem c4_lazy_deferred_subgraph (g : Graph) (L : Nat) (p : Provider)
    (hdeps : List (Nat × Scope)) (fuel1 : Nat) (vs : List Nat) (st1 : RState)
    (hp : pget g L = some p) (hg : graphTransient g)
    (hres : resolveMany g fuel1 hdeps st0 = some (vs, st1)) :
    (∀ Q, ¬ ReachesL g Q hdeps → getCount st1 Q = 0) ∧
    (¬ ReachesL g L hdeps →
      ∀ fuel2 vs2 st2, resolveMany g (fuel2 + 1) [(L, Scope.request)] st1 = some (vs2, st2) →
        (∀ Q, getCount st2 Q =
          getCount st1 Q + ((if Q = L then 1 else 0) + treeCount g fuel2 p.deps Q)) ∧
        (∀ n fuel3 st3, activateN g fuel3 L n st2 = some st3 →
          ∀ Q, getCount st3 Q = getCount st2 Q)) := by
  constructor
  · intro Q hnr
    have h := resolve_unreached g Q fuel1 hdeps st0 vs st1 hres hnr
    rw [h.1]
    simp [st0, getCount, alookup]
  · intro hnrL fuel2 vs2 st2 hact
    have hmiss : alookup st1.reqCache L = none := by
      have h := resolve_unreached g L fuel1 hdeps st0 vs st1 hres hnrL
      have h2 : cacheHit st1 Scope.request L = cacheHit st0 Scope.request L := h.2.1
      simpa [cacheHit, st0, alookup] using h2
    have hfirst := activate_first g L p hp hg fuel2 st1 vs2 st2 hmiss hact
    refine ⟨hfirst.1, ?_⟩
    obtain ⟨v, hv⟩ := hfirst.2
    intro n fuel3 st3 hcc Q
    exact (activateN_cached g L v n fuel3 st2 st3 hv hcc).1 Q

theorem c4_lazy_deferred_subgraph_witness :
    countAfter ((resolveMany gLz 10 hLz st0).map Prod.snd) 0 = 0 ∧
    countAfter ((resolveMany gLz 10 hLz st0).map Prod.snd) 1 = 0 ∧
    countAfter ((resolveMany gLz 10 [(1, Scope.request)] st0).map Prod.snd) 1 = 1 ∧
    countAfter ((resolveMany gLz 10 [(1, Scope.request)] st0).map Prod.snd) 0 = 1 := by
  have hg : graphTransient gLz := by
    intro q hq e he
    simp [gLz] at hq
    rcases hq with rfl | rfl
    · simp [pBase] at he
    · simp [pDerived] at he
      rw [he]
  have hnr : ∀ Q, ¬ ReachesL gLz Q hLz := by
    intro Q h
    cases h with
    | head _ _ _ h1 _ => exact h1 rfl
    | via _ _ _ _ h1 _ _ => exact h1 rfl
    | tail _ _ h1 => cases h1
  have h1 : resolveMany gLz 10 hLz st0 = some ([0], st0) := by decide
  have hthm := c4_lazy_deferred_subgraph gLz 1 pDerived hLz 10 [0] st0 rfl hg h1
  have hz0 : getCount st0 0 = 0 := hthm.1 0 (hnr 0)
  have hz1 : getCount st0 1 = 0 := hthm.1 1 (hnr 1)
  have h2 : resolveMany gLz 10 [(1, Scope.request)] st0 =
      some ([15], ⟨[(1, 15)], [], [(1, 1), (0, 1)], [(1, 15), (0, 10)], [], []⟩) := by decide
  have hact := (hthm.2 (hnr 1) 9 [15]
    ⟨[(1, 15)], [], [(1, 1), (0, 1)], [(1, 15), (0, 10)], [], []⟩ h2).1
  have ha1 : getCount (⟨[(1, 15)], [], [(1, 1), (0, 1)], [(1, 15), (0, 10)], [], []⟩ : RState) 1 = 1 := by
    rw [hact 1, hz1]
    decide
  have ha0 : getCount (⟨[(1, 15)], [], [(1, 1), (0, 1)], [(1, 15), (0, 10)], [], []⟩ : RState) 0 = 1 := by
    rw [hact 0, hz0]
    decide
  refine ⟨?_, ?_, ?_, ?_⟩
  · rw [h1]
    simpa [countAfter] using hz0
  · rw [h1]
    simpa [countAfter] using hz1
  · rw [h2]
    simpa [countAfter] using ha1
  · rw [h2]
    simpa [countAfter] using ha0

/-! ## Claim C6 -/

/-- C6: A handler parameter sourced from a query parameter with no value in
the request: with a declared default the handler receives the default and
no error is raised; without one the request fails with status 400 and the
body `Missing required query parameter '<name>'`. -/
theorem c6_missing_query_param (req : HttpReq) (name : String) (ty : Ty)
    (onOk : Val → String) (hmiss : firstVal req.query name = none) :
    (∀ d, resolveParam req PSource.query name ty (some d) = Except.ok d) ∧
    respondWith (resolveParam req PSource.query name ty none) onOk =
      (400, "Missing required query parameter " ++ apos ++ name ++ apos) := by
  constructor
  · intro d
    simp [resolveParam, rawOf, hmiss]
  · have hmsg : messageOf (PFailure.missing PSource.query name) =
        "Missing required query parameter " ++ apos ++ name ++ apos := by
      show "Missing required " ++ sourceLabel PSource.query ++ " " ++ apos ++ name ++ apos = _
      rw [show ("Missing required " ++ sourceLabel PSource.query ++ " " : String) =
        "Missing required query parameter " from by decide]
    simp [resolveParam, rawOf, hmiss, respondWith, statusOf, hmsg]

theorem c6_missing_query_param_witness :
    resolveParam reqEmpty PSource.query "q" Ty.tInt (some (Val.vInt 7)) =
      Except.ok (Val.vInt 7) ∧
    respondWith (resolveParam reqEmpty PSource.query "q" Ty.tInt none) (fun _ => "") =
      (400, "Missing required query parameter " ++ apos ++ "q" ++ apos) := by
  have hthm := c6_missing_query_param reqEmpty "q" Ty.tInt (fun _ => "") (by decide)
  exact ⟨hthm.1 (Val.vInt 7), hthm.2⟩

/-! ## Claim C7 -/

/-- C7: For every parameter source, a raw value that is present but does
not coerce to the declared type fails with status 422 and the body
`Invalid <source> '<name>'`, naming the source tag and the parameter name.
The resolution is a total function into `Except` — the coercion failure is
returned as a value, never surfaced as an exception. -/
theorem c7_invalid_coercion (req : HttpReq) (src : PSource) (name raw : String)
    (ty : Ty) (deflt : Option Val) (onOk : Val → String)
    (hraw : rawOf src req name = some raw) (hbad : coerce ty raw = none) :
    resolveParam req src name ty deflt = Except.error (PFailure.invalid src name) ∧
    respondWith (resolveParam req src name ty deflt) onOk =
      (422, "Invalid " ++ sourceLabel src ++ " " ++ apos ++ name ++ apos) := by
  have h : resolveParam req src name ty deflt = Except.error (PFailure.invalid src name) := by
    simp [resolveParam, hraw, hbad]
  exact ⟨h, by simp [h, respondWith, statusOf, messageOf]⟩

theorem c7_invalid_coercion_witness :
    respondWith (resolveParam reqBadInt PSource.query "q" Ty.tInt none) (fun _ => "") =
      (422, "Invalid query parameter " ++ apos ++ "q" ++ apos) := by
  have hthm := c7_invalid_coercion reqBadInt PSource.query "q" "not-an-int" Ty.tInt none
    (fun _ => "") (by decide) (by decide)
  rw [hthm.2]
  decide

/-! ## Claim C8 -/

/-- C8: A body parameter with a structured target: a request whose content
type is not JSON is rejected with 415 `Unsupported media type`; a request
with a JSON content type whose body does not decode — the empty body
included, since the empty string is not a JSON document — is rejected
with 422. -/
theorem c8_structured_body_errors (req : HttpReq) :
    (isJsonCT req.contentType = false →
      bodyOutcome req BTy.bStructured = (415, "Unsupported media type")) ∧
    (isJsonCT req.contentType = true → parseJson? req.body = none →
      (bodyOutcome req BTy.bStructured).1 = 422) ∧
    (parseJson? "").isNone = true := by
  refine ⟨?_, ?_, by decide⟩
  · intro h
    simp [bodyOutcome, parseBody, h, statusOf, messageOf]
  · intro h hj
    simp [bodyOutcome, parseBody, h, hj, statusOf]

theorem c8_structured_body_errors_witness :
    bodyOutcome reqPlainText BTy.bStructured = (415, "Unsupported media type") ∧
    (bodyOutcome reqJsonEmpty BTy.bStructured).1 = 422 ∧
    (bodyOutcome reqJsonJunk BTy.bStructured).1 = 422 := by
  have h1 := (c8_structured_body_errors reqPlainText).1 (by decide)
  have h2 := (c8_structured_body_errors reqJsonEmpty).2.1 (by decide)
    (Option.isNone_iff_eq_none.mp (by decide))
  have h3 := (c8_structured_body_errors reqJsonJunk).2.1 (by decide)
    (Option.isNone_iff_eq_none.mp (by decide))
  exact ⟨h1, h2, h3⟩

/-! ## Claim C9 -/

/-- C9: When the wrapped application raises, the guardian swallows the
exception — its output is always a plain message list, never a re-raise —
and sends the default plain-text 500 `Internal Server Error` response
exactly when no response-start message had been sent yet; if the response
had already started, nothing further is written. -/
theorem c9_guardian_default_500 (tid : String) (app : AppRun) (hraise : app.raises = true) :
    (responseStarted app.msgs = false →
      guardian tid app = app.msgs.map (sendTransform tid) ++
        [Msg.start ⟨500, [("content-type", "text/plain; charset=utf-8"),
          ("content-length", "21"), ("x-request-id", tid)]⟩,
         Msg.body "Internal Server Error" false]) ∧
    (responseStarted app.msgs = true →
      guardian tid app = app.msgs.map (sendTransform tid)) := by
  constructor
  · intro h
    simp [guardian, hraise, h, plainText500, sendTransform]
  · intro h
    simp [guardian, hraise, h]

theorem c9_guardian_default_500_witness :
    guardian "TID" appCrash =
      [Msg.start ⟨500, [("content-type", "text/plain; charset=utf-8"),
        ("content-length", "21"), ("x-request-id", "TID")]⟩,
       Msg.body "Internal Server Error" false] := by
  have h := (c9_guardian_default_500 "TID" appCrash (by decide)).1 (by decide)
  simpa [appCrash] using h

/-! ## Claim C10 -/

/-- C10: Every response-start message leaving the guardian — on successful
responses as much as on error ones — carries an `x-request-id` header
appended at the end of its header list, holding exactly the per-request
trace id, so requests processed with distinct trace ids carry distinct
correlation ids. -/
theorem c10_request_id_appended (tid : String) (app : AppRun) :
    ∀ s : StartMsg, Msg.start s ∈ guardian tid app →
      ∃ hs : List (String × String), s.headers = hs ++ [("x-request-id", tid)] := by
  intro s hmem
  have key : ∀ (l : List Msg), Msg.start s ∈ l.map (sendTransform tid) →
      ∃ hs : List (String × String), s.headers = hs ++ [("x-request-id", tid)] := by
    intro l hl
    obtain ⟨m, hm, hms⟩ := List.mem_map.mp hl
    cases m with
    | start s0 =>
      simp [sendTransform, Msg.start.injEq] at hms
      exact ⟨s0.headers, by rw [← hms]⟩
    | body c mb => simp [sendTransform] at hms
  simp only [guardian] at hmem
  by_cases hr : app.raises
  · rw [if_pos hr] at hmem
    by_cases hsb : responseStarted app.msgs
    · rw [if_pos hsb] at hmem
      exact key _ hmem
    · rw [if_neg hsb] at hmem
      rcases List.mem_append.mp hmem with hmem | hmem
      · exact key _ hmem
      · exact key _ hmem
  · rw [if_neg hr] at hmem
    exact key _ hmem

theorem c10_request_id_appended_witness :
    (⟨200, [("content-type", "text/plain; charset=utf-8"),
      ("x-request-id", "TID")]⟩ : StartMsg).headers.getLast? =
      some ("x-request-id", "TID") := by
  obtain ⟨hs, hhs⟩ := c10_request_id_appended "TID" appOkRun
    ⟨200, [("content-type", "text/plain; charset=utf-8"), ("x-request-id", "TID")]⟩
    (by decide)
  rw [hhs, List.getLast?_concat]
